import Mathlib

/-!
Verification of the `gaphor` repository excerpts:
`gaphor/codegen/profile_coder.py` (the profile code generator) and
`gaphor/diagram/activitynodes.py` (activity-diagram items).

The Python code is shallowly embedded.  UML model elements are referred to
by numeric identifiers; a `Model` maps an identifier to the data of the
`UML.Class` it denotes.  File output (`f.write(...)`) is modelled as a list
of the written string chunks, in order.  Python exceptions are modelled by
`Except Err`; `Err` distinguishes the explicit `raise ValueError` of
`type_converter` from the implicit failures (an unbound local variable,
a tuple index out of range) that the code can also hit.
-/

/-- Python rendering of an optional string inside an f-string:
`None` renders as `"None"`, a string renders as itself. -/
def optStr : Option String → String
  | none => "None"
  | some s => s

/-- Python truthiness test `not a.name` for an optional string:
`None` and the empty string are falsy. -/
def pyFalsyStr : Option String → Bool
  | none => true
  | some s => s == ""

/-- Does `pat` start the character list `l`? -/
def listStarts : List Char → List Char → Bool
  | [], _ => true
  | _ :: _, [] => false
  | p :: ps, x :: xs => p == x && listStarts ps xs

/-- Does `pat` occur contiguously in `l`? -/
def listContainsPat : List Char → List Char → Bool
  | l, pat =>
    if listStarts pat l then true
    else
      match l with
      | [] => false
      | _ :: xs => listContainsPat xs pat

/-- Python `pat in s` substring test (used as `"Kind" in cls.name`). -/
def strContainsSub (s pat : String) : Bool := listContainsPat s.toList pat.toList

/-- ASCII lower-casing of a character. -/
def charLower (c : Char) : Char :=
  if 65 ≤ c.toNat ∧ c.toNat ≤ 90 then Char.ofNat (c.toNat + 32) else c

/-- Python `str.lower()` on the ASCII strings the generator compares
against (`"boolean"`, `"integer"`, `"unlimitednatural"`, `"string"`). -/
def strLower (s : String) : String := String.mk (s.data.map charLower)

/-- Insertion of `x` into an already-sorted list, before the first
element it compares `le` to. -/
def insertLe {α : Type} (le : α → α → Bool) (x : α) : List α → List α
  | [] => [x]
  | y :: ys => if le x y then x :: y :: ys else y :: insertLe le x ys

/-- Stable sort by a boolean comparison: the model of Python `sorted`
and `list.sort` (both stable).  A stable sort is determined by the
comparison and the input order, so this agrees with Python element for
element. -/
def sortByLe {α : Type} (le : α → α → Bool) : List α → List α
  | [] => []
  | x :: xs => insertLe le x (sortByLe le xs)

/-- Code-point comparison of characters (Python string ordering). -/
def charLt (x y : Char) : Bool := decide (x.toNat < y.toNat)

/-- Lexicographic `<=` on character lists by code point; this is the
ordering Python uses to compare strings in `sorted(..., key=...)`. -/
def listLe : List Char → List Char → Bool
  | [], _ => true
  | _ :: _, [] => false
  | x :: xs, y :: ys =>
    if charLt x y then true else if charLt y x then false else listLe xs ys

/-- Python `<=` on strings (lexicographic by code point). -/
def strLe (a b : String) : Bool := listLe a.toList b.toList

/-- A single quote character, used by Python `repr` of strings. -/
def squote : String := String.singleton (Char.ofNat 39)

/-- Python `repr` of an optional string (`None` or a quoted string). -/
def pyRepr : Option String → String
  | none => "None"
  | some s => squote ++ s ++ squote

/-- Python `str` of a tuple of optional strings, as rendered by an
f-string such as `{values}`. -/
def pyReprTuple (l : List (Option String)) : String :=
  match l with
  | [] => "()"
  | [x] => "(" ++ pyRepr x ++ ",)"
  | _ => "(" ++ String.intercalate ", " (l.map pyRepr) ++ ")"

/-- Lookup in a Python `dict` built by successive insertion: a later
binding of the same key overwrites an earlier one. -/
def dictGet (d : List (String × Nat)) (k : String) : Option Nat :=
  match d with
  | [] => none
  | (k', v) :: rest =>
    match dictGet rest k with
    | some r => some r
    | none => if k' == k then some v else none

/-! ## Data model

The generator operates over `UML.Class` elements of the loaded model.
Only the fields `profile_coder.py` actually reads are represented. -/

/-- The association reachable from an association-end attribute:
models `a.association.ownedEnd.class_` (the meta class on the owned
end).  The field is the identifier of that class. -/
structure Assoc where
  ownedEndClass : Nat
deriving DecidableEq, Repr

/-- Models `a.opposite`: its `name` and whether `a.opposite.class_`
is set (truthy). -/
structure Opp where
  name : Option String
  hasClass : Bool
deriving DecidableEq, Repr

/-- A slot of an applied stereotype: `slot.definingFeature.name` and
`slot.value`. -/
structure StSlot where
  definingFeatureName : Option String
  value : Option String
deriving DecidableEq, Repr

/-- Models `UML.Property` (a class attribute) with the fields read by
the generator.  `type` is the identifier of the type class when
`property.type` is set.  `association` is present exactly when the
attribute is an association end (Python: it is listed by
`cls.attribute["it.association"]`). -/
structure Property where
  name : Option String
  type : Option Nat
  typeValue : Option String
  isDerived : Bool
  lowerValue : Option String
  upperValue : Option String
  aggregation : Option String
  opposite : Option Opp
  association : Option Assoc
  slots : List StSlot
deriving DecidableEq, Repr

/-- Models `UML.Class` with the fields read by the generator.
`general` lists the identifiers of the classes reachable through
`cls.general`; `ownedOperation` lists the operation names. -/
structure UMLClass where
  name : String
  qualifiedName : List String
  general : List Nat
  attributes : List Property
  ownedOperation : List (Option String)
deriving DecidableEq, Repr

/-- A loaded model: class data for every element identifier. -/
abbrev Model := Nat → UMLClass

/-- Failures of the generator.  `valueError` is the explicit
`raise ValueError` of `type_converter`; `unboundLocal` models Python
reading a local variable that was never assigned; `indexError` models
an out-of-range tuple index. -/
inductive Err where
  | valueError (msg : String)
  | unboundLocal (v : String)
  | indexError (msg : String)
deriving DecidableEq, Repr

deriving instance DecidableEq for Except

/-! ## profile_coder.py -/

/-- The fixed file header written first by `generate`. -/
def header : String :=
  "# This file is generated by profile_coder.py. DO NOT EDIT!\n\n" ++
  "from __future__ import annotations\n\n" ++
  "from gaphor.core.modeling.properties import (\n    association,\n" ++
  "    attribute,\n    enumeration,\n    relation_many,\n    relation_one,\n)\n"

/-- The message of the `ValueError` raised by `type_converter`. -/
def typeErrMsg (p : Property) : String :=
  "ERROR! type is not specified for property " ++ optStr p.name

/-- Models `type_converter(property)`: the Python function returns a string, or
raises `ValueError` when the property has neither a type object nor a
`typeValue`.  `str(property.type.name)` is the name of the type class. -/
def type_converter (m : Model) (p : Property) : Except Err String :=
  match p.type with
  | some t => .ok (m t).name
  | none =>
    match p.typeValue with
    | none => .error (.valueError (typeErrMsg p))
    | some tv =>
      if strLower tv == "boolean" then .ok "int"
      else if strLower tv == "integer" || strLower tv == "unlimitednatural" then .ok "int"
      else if strLower tv == "string" || tv == "ValueSpecification" then .ok "str"
      else .ok tv

/-- Models `filter_uml_classes(classes, modeling_language)`: keeps the classes
whose name the modeling language resolves.  The external
`UMLModelingLanguage.lookup_element` is abstracted as a predicate on
names. -/
def filter_uml_classes (m : Model) (ml : String → Bool) (classes : List Nat) : List Nat :=
  classes.filter (fun cls => ml (m cls).name)

/-- Models `find_enumerations(classes)`: splits off the classes whose name
contains `"Kind"`, also returning them as a name-keyed dictionary. -/
def find_enumerations (m : Model) (classes : List Nat) :
    List Nat × List (String × Nat) :=
  (classes.filter (fun cls => !(strContainsSub (m cls).name "Kind")),
   (classes.filter (fun cls => strContainsSub (m cls).name "Kind")).map
     (fun cls => ((m cls).name, cls)))

/-- Models `filter_out_gaphor_profile(classes)`: drops the classes whose
qualified name starts with the `"Gaphor Profile"` package
(`cls.qualifiedName[0]`). -/
def filter_out_gaphor_profile (m : Model) (classes : List Nat) : List Nat :=
  classes.filter (fun cls => (m cls).qualifiedName.head? != some "Gaphor Profile")

/-- Models `get_class_extensions(cls)`: the meta classes connected with
extensions, i.e. `a.association.ownedEnd.class_` for every
association-end attribute named `"baseClass"`. -/
def get_class_extensions (m : Model) (cls : Nat) : List Nat :=
  ((m cls).attributes.filter (fun a => a.association.isSome)).filterMap
    (fun a =>
      if a.name == some "baseClass" then a.association.map Assoc.ownedEndClass
      else none)

/-- Comparison of classes by name, the sort key used throughout the
generator (`key=lambda c: c.name`). -/
def classNameLe (m : Model) (a b : Nat) : Bool := strLe (m a).name (m b).name

/-- Comparison of attributes by `a.name or ""`, the sort key of
`write_attributes` and of the in-place attribute sort in `generate`. -/
def attrNameLe (a b : Property) : Bool := strLe (a.name.getD "") (b.name.getD "")

/-- Models `create_class_hierarchy(classes)`: for every class, its general
(base) classes together with the meta classes from its extensions,
sorted by class name.  The Python dict (insertion-ordered, keyed by
class) is represented as an association list in input order. -/
def create_class_hierarchy (m : Model) (classes : List Nat) :
    List (Nat × List Nat) :=
  classes.map (fun cls =>
    (cls, sortByLe (classNameLe m) ((m cls).general ++ get_class_extensions m cls)))

/-- Models `hierarchy[cls]` for the association-list representation.  Python
raises `KeyError` for a class that is not a key; the model instead
reports no generalizations for it (no claim depends on that case). -/
def hierLookup (hier : List (Nat × List Nat)) (cls : Nat) : List Nat :=
  match hier.find? (fun p => p.1 == cls) with
  | some p => p.2
  | none => []

/-- One line of `write_attributes` for one attribute, or `none` when the
attribute is skipped (`not a.name`, `baseClass`, derived, or a falsy
converted type).  Propagates the `type_converter` failure. -/
def attrTypeLine (m : Model) (a : Property) : Except Err (Option String) :=
  if pyFalsyStr a.name || a.name == some "baseClass" || a.isDerived then .ok none
  else
    match type_converter m a with
    | .error e => .error e
    | .ok tv =>
      if tv == "" then .ok none
      else if tv == "int" || tv == "str" then
        .ok (some ("    " ++ optStr a.name ++ ": attribute[" ++ tv ++ "]\n"))
      else if strContainsSub tv "Kind" then
        .ok (some ("    " ++ optStr a.name ++ ": enumeration\n"))
      else if a.upperValue == some "1" then
        .ok (some ("    " ++ optStr a.name ++ ": relation_one[" ++ tv ++ "]\n"))
      else
        .ok (some ("    " ++ optStr a.name ++ ": relation_many[" ++ tv ++ "]\n"))

/-- The attribute loop of `write_attributes`, left to right: collects the
per-attribute results, stopping at the first failure (as the raised
exception would). -/
def attrLinesGo (m : Model) : List Property → Except Err (List (Option String))
  | [] => .ok []
  | a :: rest =>
    match attrTypeLine m a with
    | .error e => .error e
    | .ok o =>
      match attrLinesGo m rest with
      | .error e => .error e
      | .ok os => .ok (o :: os)

/-- The attribute lines of `write_attributes`: the attributes are
iterated in sorted order (`sorted(cls.attribute, key=lambda a: a.name or "")`). -/
def attrLinesOf (m : Model) (cls : Nat) : Except Err (List String) :=
  match attrLinesGo m (sortByLe attrNameLe (m cls).attributes) with
  | .error e => .error e
  | .ok opts => .ok opts.reduceOption

/-- Models `write_attributes(cls, f)`: attribute lines, then operation lines,
then `pass` when nothing was written. -/
def write_attributes (m : Model) (cls : Nat) : Except Err (List String) :=
  match attrLinesOf m cls with
  | .error e => .error e
  | .ok attrLines =>
    let opLines := (m cls).ownedOperation.map
      (fun o => "    " ++ optStr o ++ ": operation\n")
    if attrLines.isEmpty && opLines.isEmpty then .ok ["    pass\n\n"]
    else .ok (attrLines ++ opLines)

/-- The `class ...(...):` line written by `write_class_def`. -/
def classDefLine (m : Model) (h : Nat → List Nat) (cls : Nat) : String :=
  "class " ++ (m cls).name ++ "(" ++
    String.intercalate ", " ((h cls).map (fun g => (m g).name)) ++ "):\n"

/-- The output state threaded through the emission phase: the classes
added to `cls_written` in insertion order, and the chunks written to
the file so far. -/
structure EmitState where
  written : List Nat
  lines : List String
deriving DecidableEq, Repr

/-- The `for g in generalizations: write_class_def(g, ...)` loop,
abstracted over the recursive call. -/
def write_gen_list (f : Nat → EmitState → Except Err EmitState) :
    List Nat → EmitState → Except Err EmitState
  | [], st => .ok st
  | g :: gs, st =>
    match f g st with
    | .error e => .error e
    | .ok st' => write_gen_list f gs st'

/-- Models `write_class_def(cls, hierarchy, f, cls_written)`: returns at once
when `cls` is already written, otherwise first writes all its
generalizations, then the class definition line and its attributes, and
finally records `cls` as written.  Python's unbounded recursion (which
diverges on a cyclic hierarchy) is bounded by `fuel`; any `fuel`
exceeding the height of the (acyclic) hierarchy reproduces the Python
behaviour. -/
def write_class_def (m : Model) (h : Nat → List Nat) :
    Nat → Nat → EmitState → Except Err EmitState
  | 0, _, st => .ok st
  | fuel + 1, cls, st =>
    if cls ∈ st.written then .ok st
    else
      match write_gen_list (fun g s => write_class_def m h fuel g s) (h cls) st with
      | .error e => .error e
      | .ok st1 =>
        match write_attributes m cls with
        | .error e => .error e
        | .ok attrLines =>
          .ok ⟨st1.written ++ [cls], st1.lines ++ classDefLine m h cls :: attrLines⟩

/-- The `for cls in hierarchy.keys(): write_class_def(...)` loop of
`generate`. -/
def generateClassDefs (m : Model) (h : Nat → List Nat) (fuel : Nat)
    (keys : List Nat) (st : EmitState) : Except Err EmitState :=
  write_gen_list (fun cls s => write_class_def m h fuel cls s) keys st

/-- The classes that enter the sort and traversal steps of `generate`:
enumerations (`"Kind"` in the name) are split off, the `Gaphor Profile`
package is dropped, names starting with `"~"` are dropped, and the rest
is sorted by name. -/
def traversalKeys (m : Model) (classes0 : List Nat) : List Nat :=
  let classes1 := (find_enumerations m classes0).1
  let classes2 := filter_out_gaphor_profile m classes1
  sortByLe (classNameLe m)
    (classes2.filter (fun cls => (m cls).name.toList.head? != some '~'))

/-- The `from gaphor.UML import ...` lines of `generate`. -/
def umlImports (m : Model) (uml : List Nat) : List String :=
  uml.map (fun cls => "from gaphor.UML import " ++ (m cls).name ++ "\n")

/-- The `.lower()` / `.upper()` etc. rendering of one association
argument list of `write_properties`. -/
def assocArgs (a : Property) : String :=
  let lower :=
    if a.lowerValue == none || a.lowerValue == some "0" then ""
    else ", lower=" ++ optStr a.lowerValue
  let upper :=
    if a.upperValue == some "*" then ""
    else ", upper=" ++ (if pyFalsyStr a.upperValue then "1" else optStr a.upperValue)
  let composite := if a.aggregation == some "composite" then ", composite=True" else ""
  let opposite :=
    match a.opposite with
    | some o =>
      if !pyFalsyStr o.name && o.hasClass then
        ", opposite=\"" ++ optStr o.name ++ "\""
      else ""
    | none => ""
  lower ++ upper ++ composite ++ opposite

/-- The loop body of `write_properties`.  The parameter `values` is the
Python local variable of that name: it starts unassigned (`none`) and
keeps its last assigned value across iterations.  Reading it while it
is still unassigned is the unbound-local failure; `values[0]` on an
empty tuple is the index failure. -/
def write_properties_go (m : Model) (enums : List (String × Nat)) (clsName : String) :
    List Property → Option (List (Option String)) → List String →
    Except Err (List String)
  | [], _, out => .ok out
  | a :: rest, values, out =>
    if pyFalsyStr a.name || a.name == some "baseClass" || a.isDerived then
      write_properties_go m enums clsName rest values out
    else
      match type_converter m a with
      | .error e => .error e
      | .ok tv =>
        if tv == "int" || tv == "str" then
          write_properties_go m enums clsName rest values
            (out ++ [clsName ++ "." ++ optStr a.name ++ " = attribute(\"" ++
              optStr a.name ++ "\", " ++ tv ++ ")\n"])
        else if tv == "" then
          -- Python prints "No type for ..." to stdout and writes nothing.
          write_properties_go m enums clsName rest values out
        else if strContainsSub tv "Kind" then
          let values' : Option (List (Option String)) :=
            match dictGet enums tv with
            | some e => some ((m e).attributes.map (fun a' => a'.name))
            | none => values
          match values' with
          | none => .error (.unboundLocal "values")
          | some vs =>
            match vs.head? with
            | none => .error (.indexError "tuple index out of range")
            | some v0 =>
              write_properties_go m enums clsName rest values'
                (out ++ [clsName ++ "." ++ optStr a.name ++ " = enumeration(\"" ++
                  optStr a.name ++ "\", " ++ pyReprTuple vs ++ ", \"" ++
                  optStr v0 ++ "\")\n"])
        else
          write_properties_go m enums clsName rest values
            (out ++ [clsName ++ "." ++ optStr a.name ++ " = association(\"" ++
              optStr a.name ++ "\", " ++ tv ++ assocArgs a ++ ")\n"])

/-- Models `write_properties(cls, f, enumerations)`. -/
def write_properties (m : Model) (enums : List (String × Nat)) (cls : Nat) :
    Except Err (List String) :=
  write_properties_go m enums (m cls).name (m cls).attributes none []

/-- Models `write_subsets(cls, f)`: one line per `subsets` stereotype slot of
every attribute. -/
def write_subsets (m : Model) (cls : Nat) : List String :=
  (m cls).attributes.flatMap (fun a =>
    (a.slots.filter (fun s => s.definingFeatureName == some "subsets")).map
      (fun s =>
        (m cls).name ++ "." ++ optStr s.value ++ ".subsets.add(" ++ (m cls).name ++
          "." ++ optStr a.name ++ ")  # type: ignore[attr-defined]\n"))

/-- The model after `generate`'s in-place
`cls.attribute.sort(key=lambda a: a.name or "")` over the hierarchy
keys. -/
def sortedAttrModel (m : Model) (keys : List Nat) : Model :=
  fun cls =>
    if cls ∈ keys then
      { m cls with attributes := sortByLe attrNameLe (m cls).attributes }
    else m cls

/-- Sequencing of `write_properties` over the hierarchy keys. -/
def writePropertiesAll (m : Model) (enums : List (String × Nat)) :
    List Nat → Except Err (List String)
  | [] => .ok []
  | cls :: rest =>
    match write_properties m enums cls with
    | .error e => .error e
    | .ok out =>
      match writePropertiesAll m enums rest with
      | .error e => .error e
      | .ok out' => .ok (out ++ out')

/-- Models `generate(filename, outfile)` after the model has been loaded: the
element factory's class list is the input `classes0`; the external
modeling language is the name predicate `ml`.  Returns every chunk
written to the output file, in order.  `fuel` bounds the
`write_class_def` recursion as above. -/
def generate (m : Model) (ml : String → Bool) (classes0 : List Nat) (fuel : Nat) :
    Except Err (List String) :=
  let enums := (find_enumerations m classes0).2
  let classes := traversalKeys m classes0
  let hier := create_class_hierarchy m classes
  let uml := filter_uml_classes m ml classes
  match generateClassDefs m (hierLookup hier) fuel classes ⟨uml, []⟩ with
  | .error e => .error e
  | .ok st =>
    let m' := sortedAttrModel m classes
    match writePropertiesAll m' enums classes with
    | .error e => .error e
    | .ok propLines =>
      let subsetLines := classes.flatMap (fun cls => write_subsets m' cls)
      .ok (header :: umlImports m uml ++ st.lines ++ "\n\n" :: propLines ++ subsetLines)

/-! ## activitynodes.py -/

/-- A handle coordinate of the fork node item (the two handles' x and y
projection variables used in the constraints). -/
inductive GVar where
  | h1x
  | h1y
  | h2x
  | h2y
deriving DecidableEq, Repr

/-- The gaphas constraints applied by `ForkNodeItem`: an
`EqualsConstraint(a=.., b=..)` and a
`LessThanConstraint(smaller=.., bigger=.., delta=..)`.  The constraints
are kept symbolic; solving them belongs to the external toolkit. -/
inductive GConstraint where
  | equalsC (a b : GVar)
  | lessThan (smaller bigger : GVar) (delta : Int)
deriving DecidableEq, Repr

/-- The part of the canvas and item state that
`setup_canvas`/`teardown_canvas` touch: the solver's constraint list
and the item's `_constraints` list. -/
structure ForkNodeState where
  solver : List GConstraint
  itemConstraints : List GConstraint
deriving DecidableEq, Repr

/-- Models `EqualsConstraint(a=h1.x, b=h2.x)`. -/
def forkEqualsConstraint : GConstraint := .equalsC .h1x .h2x

/-- Models `LessThanConstraint(smaller=h1.y, bigger=h2.y, delta=30)`. -/
def forkLessThanConstraint : GConstraint := .lessThan .h1y .h2y 30

/-- Models `ForkNodeItem.setup_canvas`: adds the two constraints to the solver
and records them in `self._constraints`. -/
def setup_canvas (st : ForkNodeState) : ForkNodeState :=
  { solver := st.solver ++ [forkEqualsConstraint, forkLessThanConstraint],
    itemConstraints :=
      st.itemConstraints ++ [forkEqualsConstraint, forkLessThanConstraint] }

/-- Models `solver.remove_constraint(c)`: removes the (identical) constraint
from the solver's list. -/
def removeConstraint (l : List GConstraint) (c : GConstraint) : List GConstraint :=
  match l with
  | [] => []
  | x :: xs => if x = c then xs else x :: removeConstraint xs c

/-- Models `ForkNodeItem.teardown_canvas`: removes every constraint recorded in
`self._constraints` from the solver. -/
def teardown_canvas (st : ForkNodeState) : ForkNodeState :=
  { solver := st.itemConstraints.foldl removeConstraint st.solver,
    itemConstraints := st.itemConstraints }

/-- Models `LiteralSpecification` as read by `ForkNodeItem`: its `value`. -/
structure LiteralSpec where
  value : Option String
deriving DecidableEq, Repr

/-- The subject of a `ForkNodeItem` (a fork or join node): whether it is
a `UML.JoinNode`, and its `joinSpec`. -/
structure NodeSubject where
  isJoinNode : Bool
  joinSpec : Option LiteralSpec
deriving DecidableEq, Repr

/-- Models `DEFAULT_JOIN_SPEC`. -/
def DEFAULT_JOIN_SPEC : String := "and"

/-- Models `ForkNodeItem.set_join_spec(value)`: creates the `joinSpec` literal
if missing, defaults a falsy `value` to `DEFAULT_JOIN_SPEC`, and stores
it.  Returns the updated subject. -/
def set_join_spec (subject : Option NodeSubject) (value : Option String) :
    Option NodeSubject :=
  match subject with
  | none => none
  | some s =>
    if !s.isJoinNode then some s
    else
      let v := if pyFalsyStr value then DEFAULT_JOIN_SPEC else optStr value
      some { s with joinSpec := some { value := some v } }

/-- The condition
`self.subject and not (self.subject.joinSpec or self.subject.joinSpec.value)`
of `ForkNodeItem.on_subject_notify`, evaluated with Python semantics:
`and`/`or` short-circuit on truthiness, and `.value` on a `None`
`joinSpec` raises `AttributeError`. -/
def notifyGuard (subject : Option NodeSubject) : Except String Bool :=
  match subject with
  | none => .ok false
  | some s =>
    match s.joinSpec with
    | some _ => .ok false
    | none => .error "AttributeError: NoneType object has no attribute value"

/-- Models `ForkNodeItem.on_subject_notify`: when the guard holds it sets the
default join specification.  Returns the (possibly updated) subject and
whether the defaulting branch ran. -/
def on_subject_notify (subject : Option NodeSubject) :
    Except String (Option NodeSubject × Bool) :=
  match notifyGuard subject with
  | .error e => .error e
  | .ok g =>
    if g then .ok (set_join_spec subject (some DEFAULT_JOIN_SPEC), true)
    else .ok (subject, false)

/-! ## Helper lemmas: string comparison -/

theorem charLt_iff (x y : Char) : charLt x y = true ↔ x.toNat < y.toNat := by
  simp [charLt]

theorem listLe_total : ∀ a b : List Char, (listLe a b || listLe b a) = true := by
  intro a
  induction a with
  | nil => intro b; simp [listLe]
  | cons x xs ih =>
    intro b
    cases b with
    | nil => simp [listLe]
    | cons y ys =>
      simp only [listLe]
      rcases Nat.lt_trichotomy x.toNat y.toNat with hlt | heq | hgt
      · have h1 : charLt x y = true := (charLt_iff x y).mpr hlt
        simp [h1]
      · have h1 : charLt x y = false := by
          rw [← Bool.not_eq_true, charLt_iff]; omega
        have h2 : charLt y x = false := by
          rw [← Bool.not_eq_true, charLt_iff]; omega
        simpa [h1, h2] using ih ys
      · have h2 : charLt y x = true := (charLt_iff y x).mpr hgt
        have h1 : charLt x y = false := by
          rw [← Bool.not_eq_true, charLt_iff]; omega
        simp [h1, h2]

theorem listLe_trans :
    ∀ a b c : List Char, listLe a b = true → listLe b c = true → listLe a c = true := by
  intro a
  induction a with
  | nil => intro b c _ _; simp [listLe]
  | cons x xs ih =>
    intro b c hab hbc
    cases b with
    | nil => simp [listLe] at hab
    | cons y ys =>
      cases c with
      | nil => simp [listLe] at hbc
      | cons z zs =>
        simp only [listLe] at hab hbc ⊢
        rcases Nat.lt_trichotomy x.toNat y.toNat with hxy | hxy | hxy
        · -- x < y: from hbc, y <= z at the head, so x < z
          rcases Nat.lt_trichotomy y.toNat z.toNat with hyz | hyz | hyz
          · have : charLt x z = true := (charLt_iff x z).mpr (by omega)
            simp [this]
          · have : charLt x z = true := (charLt_iff x z).mpr (by omega)
            simp [this]
          · have h1 : charLt y z = false := by
              rw [← Bool.not_eq_true, charLt_iff]; omega
            have h2 : charLt z y = true := (charLt_iff z y).mpr hyz
            simp [h1, h2] at hbc
        · -- heads equal
          rcases Nat.lt_trichotomy y.toNat z.toNat with hyz | hyz | hyz
          · have : charLt x z = true := (charLt_iff x z).mpr (by omega)
            simp [this]
          · have e1 : charLt x y = false := by
              rw [← Bool.not_eq_true, charLt_iff]; omega
            have e2 : charLt y x = false := by
              rw [← Bool.not_eq_true, charLt_iff]; omega
            have e3 : charLt y z = false := by
              rw [← Bool.not_eq_true, charLt_iff]; omega
            have e4 : charLt z y = false := by
              rw [← Bool.not_eq_true, charLt_iff]; omega
            have e5 : charLt x z = false := by
              rw [← Bool.not_eq_true, charLt_iff]; omega
            have e6 : charLt z x = false := by
              rw [← Bool.not_eq_true, charLt_iff]; omega
            simp only [e1, e2] at hab
            simp only [e3, e4] at hbc
            simp only [e5, e6, if_false]
            exact ih ys zs (by simpa using hab) (by simpa using hbc)
          · have h1 : charLt y z = false := by
              rw [← Bool.not_eq_true, charLt_iff]; omega
            have h2 : charLt z y = true := (charLt_iff z y).mpr hyz
            simp [h1, h2] at hbc
        · have h1 : charLt x y = false := by
            rw [← Bool.not_eq_true, charLt_iff]; omega
          have h2 : charLt y x = true := (charLt_iff y x).mpr hxy
          simp [h1, h2] at hab

theorem strLe_total (a b : String) : (strLe a b || strLe b a) = true :=
  listLe_total a.toList b.toList

theorem strLe_trans (a b c : String) :
    strLe a b = true → strLe b c = true → strLe a c = true :=
  listLe_trans a.toList b.toList c.toList

theorem classNameLe_trans (m : Model) (a b c : Nat) :
    classNameLe m a b = true → classNameLe m b c = true → classNameLe m a c = true :=
  strLe_trans (m a).name (m b).name (m c).name

theorem classNameLe_total (m : Model) (a b : Nat) :
    (classNameLe m a b || classNameLe m b a) = true :=
  strLe_total (m a).name (m b).name

theorem attrNameLe_trans (a b c : Property) :
    attrNameLe a b = true → attrNameLe b c = true → attrNameLe a c = true :=
  strLe_trans (a.name.getD "") (b.name.getD "") (c.name.getD "")

theorem attrNameLe_total (a b : Property) :
    (attrNameLe a b || attrNameLe b a) = true :=
  strLe_total (a.name.getD "") (b.name.getD "")

/-! ## Helper lemmas: the emission phase -/

theorem write_class_def_zero (m : Model) (h : Nat → List Nat) (cls : Nat)
    (st : EmitState) : write_class_def m h 0 cls st = .ok st := rfl

theorem write_class_def_succ (m : Model) (h : Nat → List Nat) (fuel cls : Nat)
    (st : EmitState) :
    write_class_def m h (fuel + 1) cls st =
      if cls ∈ st.written then .ok st
      else
        match write_gen_list (fun g s => write_class_def m h fuel g s) (h cls) st with
        | .error e => .error e
        | .ok st1 =>
          match write_attributes m cls with
          | .error e => .error e
          | .ok attrLines =>
            .ok ⟨st1.written ++ [cls], st1.lines ++ classDefLine m h cls :: attrLines⟩ := rfl

theorem write_gen_list_ok_extends
    (f : Nat → EmitState → Except Err EmitState)
    (hf : ∀ g st st', f g st = .ok st' → ∃ ext, st'.written = st.written ++ ext) :
    ∀ (l : List Nat) (st st' : EmitState),
      write_gen_list f l st = .ok st' → ∃ ext, st'.written = st.written ++ ext := by
  intro l
  induction l with
  | nil =>
    intro st st' hok
    injection hok with h'
    exact ⟨[], by simp [h']⟩
  | cons g gs ih =>
    intro st st' hok
    cases hfg : f g st with
    | error e => simp only [write_gen_list, hfg] at hok; exact Except.noConfusion hok
    | ok st1 =>
      simp only [write_gen_list, hfg] at hok
      obtain ⟨e1, he1⟩ := hf g st st1 hfg
      obtain ⟨e2, he2⟩ := ih st1 st' hok
      exact ⟨e1 ++ e2, by rw [he2, he1, List.append_assoc]⟩

theorem wcd_ok_extends (m : Model) (h : Nat → List Nat) :
    ∀ (fuel cls : Nat) (st st' : EmitState),
      write_class_def m h fuel cls st = .ok st' →
      ∃ ext, st'.written = st.written ++ ext := by
  intro fuel
  induction fuel with
  | zero =>
    intro cls st st' hok
    injection hok with h'
    exact ⟨[], by simp [h']⟩
  | succ fuel ih =>
    intro cls st st' hok
    rw [write_class_def_succ] at hok
    by_cases hmem : cls ∈ st.written
    · rw [if_pos hmem] at hok
      injection hok with h'
      exact ⟨[], by simp [h']⟩
    · rw [if_neg hmem] at hok
      cases hwgl : write_gen_list (fun g s => write_class_def m h fuel g s) (h cls) st with
      | error e => simp only [hwgl] at hok; exact Except.noConfusion hok
      | ok st1 =>
        simp only [hwgl] at hok
        cases hwa : write_attributes m cls with
        | error e => simp only [hwa] at hok; exact Except.noConfusion hok
        | ok als =>
          simp only [hwa] at hok
          obtain ⟨e1, he1⟩ :=
            write_gen_list_ok_extends _ (fun g st st' hg => ih g st st' hg)
              (h cls) st st1 hwgl
          injection hok with h'
          refine ⟨e1 ++ [cls], ?_⟩
          rw [← h']
          simp [he1]

theorem wcd_ok_mem_mono (m : Model) (h : Nat → List Nat) (fuel cls : Nat)
    (st st' : EmitState) (hok : write_class_def m h fuel cls st = .ok st')
    (x : Nat) (hx : x ∈ st.written) : x ∈ st'.written := by
  obtain ⟨ext, he⟩ := wcd_ok_extends m h fuel cls st st' hok
  rw [he]
  exact List.mem_append_left _ hx

theorem write_gen_list_ok_mem_mono
    (f : Nat → EmitState → Except Err EmitState)
    (hf : ∀ g st st', f g st = .ok st' → ∃ ext, st'.written = st.written ++ ext)
    (l : List Nat) (st st' : EmitState)
    (hok : write_gen_list f l st = .ok st')
    (x : Nat) (hx : x ∈ st.written) : x ∈ st'.written := by
  obtain ⟨ext, he⟩ := write_gen_list_ok_extends f hf l st st' hok
  rw [he]
  exact List.mem_append_left _ hx

theorem wcd_ok_self_mem (m : Model) (h : Nat → List Nat) (fuel cls : Nat)
    (st st' : EmitState) (hfuel : 1 ≤ fuel)
    (hok : write_class_def m h fuel cls st = .ok st') : cls ∈ st'.written := by
  cases fuel with
  | zero => omega
  | succ fuel =>
    rw [write_class_def_succ] at hok
    by_cases hmem : cls ∈ st.written
    · rw [if_pos hmem] at hok
      injection hok with h'
      rw [← h']
      exact hmem
    · rw [if_neg hmem] at hok
      cases hwgl : write_gen_list (fun g s => write_class_def m h fuel g s) (h cls) st with
      | error e => simp only [hwgl] at hok; exact Except.noConfusion hok
      | ok st1 =>
        simp only [hwgl] at hok
        cases hwa : write_attributes m cls with
        | error e => simp only [hwa] at hok; exact Except.noConfusion hok
        | ok als =>
          simp only [hwa] at hok
          injection hok with h'
          rw [← h']
          simp

theorem write_gen_list_ok_all_mem
    (f : Nat → EmitState → Except Err EmitState)
    (hf : ∀ g st st', f g st = .ok st' → ∃ ext, st'.written = st.written ++ ext) :
    ∀ (l : List Nat) (st st' : EmitState),
      (∀ g ∈ l, ∀ st st', f g st = .ok st' → g ∈ st'.written) →
      write_gen_list f l st = .ok st' → ∀ g ∈ l, g ∈ st'.written := by
  intro l
  induction l with
  | nil => intro st st' _ _ g hg; simp at hg
  | cons g0 gs ih =>
    intro st st' hadd hok g hg
    cases hfg : f g0 st with
    | error e => simp only [write_gen_list, hfg] at hok; exact Except.noConfusion hok
    | ok st1 =>
      simp only [write_gen_list, hfg] at hok
      rcases List.mem_cons.mp hg with rfl | hgs
      · have hg1 : g ∈ st1.written := hadd g (by simp) st st1 hfg
        exact write_gen_list_ok_mem_mono f hf gs st1 st' hok g hg1
      · exact ih st1 st' (fun g' hg' => hadd g' (List.mem_cons_of_mem _ hg')) hok g hgs

theorem write_gen_list_ok_rank
    (f : Nat → EmitState → Except Err EmitState) (rk : Nat → Nat)
    (hf : ∀ g st st', f g st = .ok st' →
      ∀ x ∈ st'.written, x ∈ st.written ∨ rk x ≤ rk g) :
    ∀ (l : List Nat) (st st' : EmitState),
      write_gen_list f l st = .ok st' →
      ∀ x ∈ st'.written, x ∈ st.written ∨ ∃ g ∈ l, rk x ≤ rk g := by
  intro l
  induction l with
  | nil =>
    intro st st' hok x hx
    injection hok with h'
    rw [← h'] at hx
    exact Or.inl hx
  | cons g0 gs ih =>
    intro st st' hok x hx
    cases hfg : f g0 st with
    | error e => simp only [write_gen_list, hfg] at hok; exact Except.noConfusion hok
    | ok st1 =>
      simp only [write_gen_list, hfg] at hok
      rcases ih st1 st' hok x hx with h1 | ⟨g, hg, hrk⟩
      · rcases hf g0 st st1 hfg x h1 with h2 | h2
        · exact Or.inl h2
        · exact Or.inr ⟨g0, by simp, h2⟩
      · exact Or.inr ⟨g, List.mem_cons_of_mem _ hg, hrk⟩

theorem wcd_ok_rank (m : Model) (h : Nat → List Nat) (rk : Nat → Nat)
    (hrk : ∀ c g, g ∈ h c → rk g < rk c) :
    ∀ (fuel cls : Nat) (st st' : EmitState),
      write_class_def m h fuel cls st = .ok st' →
      ∀ x ∈ st'.written, x ∈ st.written ∨ rk x ≤ rk cls := by
  intro fuel
  induction fuel with
  | zero =>
    intro cls st st' hok x hx
    injection hok with h'
    rw [← h'] at hx
    exact Or.inl hx
  | succ fuel ih =>
    intro cls st st' hok x hx
    rw [write_class_def_succ] at hok
    by_cases hmem : cls ∈ st.written
    · rw [if_pos hmem] at hok
      injection hok with h'
      rw [← h'] at hx
      exact Or.inl hx
    · rw [if_neg hmem] at hok
      cases hwgl : write_gen_list (fun g s => write_class_def m h fuel g s) (h cls) st with
      | error e => simp only [hwgl] at hok; exact Except.noConfusion hok
      | ok st1 =>
        simp only [hwgl] at hok
        cases hwa : write_attributes m cls with
        | error e => simp only [hwa] at hok; exact Except.noConfusion hok
        | ok als =>
          simp only [hwa] at hok
          injection hok with h'
          rw [← h'] at hx
          simp only [List.mem_append, List.mem_singleton] at hx
          rcases hx with hx | rfl
          · rcases write_gen_list_ok_rank _ rk (fun g st st' hg => ih g st st' hg)
                (h cls) st st1 hwgl x hx with h1 | ⟨g, hg, hle⟩
            · exact Or.inl h1
            · exact Or.inr (le_of_lt (lt_of_le_of_lt hle (hrk cls g hg)))
          · exact Or.inr (le_refl _)

theorem write_gen_list_ok_nodup
    (f : Nat → EmitState → Except Err EmitState)
    (hf : ∀ g st st', f g st = .ok st' → st.written.Nodup → st'.written.Nodup) :
    ∀ (l : List Nat) (st st' : EmitState),
      write_gen_list f l st = .ok st' → st.written.Nodup → st'.written.Nodup := by
  intro l
  induction l with
  | nil =>
    intro st st' hok hnd
    injection hok with h'
    rw [← h']
    exact hnd
  | cons g0 gs ih =>
    intro st st' hok hnd
    cases hfg : f g0 st with
    | error e => simp only [write_gen_list, hfg] at hok; exact Except.noConfusion hok
    | ok st1 =>
      simp only [write_gen_list, hfg] at hok
      exact ih st1 st' hok (hf g0 st st1 hfg hnd)

theorem wcd_ok_nodup (m : Model) (h : Nat → List Nat) (rk : Nat → Nat)
    (hrk : ∀ c g, g ∈ h c → rk g < rk c) :
    ∀ (fuel cls : Nat) (st st' : EmitState),
      write_class_def m h fuel cls st = .ok st' →
      st.written.Nodup → st'.written.Nodup := by
  intro fuel
  induction fuel with
  | zero =>
    intro cls st st' hok hnd
    injection hok with h'
    rw [← h']
    exact hnd
  | succ fuel ih =>
    intro cls st st' hok hnd
    rw [write_class_def_succ] at hok
    by_cases hmem : cls ∈ st.written
    · rw [if_pos hmem] at hok
      injection hok with h'
      rw [← h']
      exact hnd
    · rw [if_neg hmem] at hok
      cases hwgl : write_gen_list (fun g s => write_class_def m h fuel g s) (h cls) st with
      | error e => simp only [hwgl] at hok; exact Except.noConfusion hok
      | ok st1 =>
        simp only [hwgl] at hok
        cases hwa : write_attributes m cls with
        | error e => simp only [hwa] at hok; exact Except.noConfusion hok
        | ok als =>
          simp only [hwa] at hok
          injection hok with h'
          rw [← h']
          have hnd1 : st1.written.Nodup :=
            write_gen_list_ok_nodup _ (fun g st st' hg => ih g st st' hg)
              (h cls) st st1 hwgl hnd
          have hcls : cls ∉ st1.written := by
            intro hin
            rcases write_gen_list_ok_rank _ rk
                (fun g st st' hg => wcd_ok_rank m h rk hrk fuel g st st' hg)
                (h cls) st st1 hwgl cls hin with h1 | ⟨g, hg, hle⟩
            · exact hmem h1
            · have := hrk cls g hg
              omega
          rw [List.nodup_append]
          exact ⟨hnd1, List.nodup_singleton cls, List.disjoint_singleton.mpr hcls⟩

/-- The ordering property of claim C1 over the insertion-ordered
`cls_written` record: every class recorded at a position at or past `n`
(the positions before `n` being the pre-seeded UML classes, whose
definitions are imported rather than written) has all the classes of
`hierarchy[cls]` recorded strictly earlier. -/
def GensBefore (h : Nat → List Nat) (n : Nat) (w : List Nat) : Prop :=
  ∀ (i : Nat) (hi : i < w.length), n ≤ i →
    ∀ g ∈ h (w.get ⟨i, hi⟩), g ∈ w.take i

theorem gensBefore_append (h : Nat → List Nat) (n : Nat) (w : List Nat) (cls : Nat)
    (hw : GensBefore h n w) (hg : ∀ g ∈ h cls, g ∈ w) :
    GensBefore h n (w ++ [cls]) := by
  intro i hi hn g hgm
  rcases Nat.lt_or_ge i w.length with hlt | hge
  · have hget : (w ++ [cls]).get ⟨i, hi⟩ = w.get ⟨i, hlt⟩ := by
      simp [List.get_eq_getElem, List.getElem_append_left hlt]
    rw [hget] at hgm
    rw [List.take_append_of_le_length (le_of_lt hlt)]
    exact hw i hlt hn g hgm
  · have hlen : i = w.length := by
      have : i < w.length + 1 := by simpa using hi
      omega
    subst hlen
    have hget : (w ++ [cls]).get ⟨w.length, hi⟩ = cls :=
      List.getElem_concat_length w cls w.length rfl hi
    rw [hget] at hgm
    rw [List.take_left]
    exact hg g hgm

theorem write_gen_list_ok_gensBefore
    (f : Nat → EmitState → Except Err EmitState) (h : Nat → List Nat) (n : Nat) :
    ∀ (l : List Nat) (st st' : EmitState),
      (∀ g ∈ l, ∀ st st', f g st = .ok st' →
        GensBefore h n st.written → GensBefore h n st'.written) →
      write_gen_list f l st = .ok st' →
      GensBefore h n st.written → GensBefore h n st'.written := by
  intro l
  induction l with
  | nil =>
    intro st st' _ hok hgb
    injection hok with h'
    rw [← h']
    exact hgb
  | cons g0 gs ih =>
    intro st st' hf hok hgb
    cases hfg : f g0 st with
    | error e => simp only [write_gen_list, hfg] at hok; exact Except.noConfusion hok
    | ok st1 =>
      simp only [write_gen_list, hfg] at hok
      exact ih st1 st' (fun g hg => hf g (List.mem_cons_of_mem _ hg)) hok
        (hf g0 (by simp) st st1 hfg hgb)

theorem wcd_ok_gensBefore (m : Model) (h : Nat → List Nat) (rk : Nat → Nat) (n : Nat)
    (hrk : ∀ c g, g ∈ h c → rk g < rk c) :
    ∀ (fuel cls : Nat) (st st' : EmitState), rk cls < fuel →
      write_class_def m h fuel cls st = .ok st' →
      GensBefore h n st.written → GensBefore h n st'.written := by
  intro fuel
  induction fuel with
  | zero => intro cls st st' hfuel; omega
  | succ fuel ih =>
    intro cls st st' hfuel hok hgb
    rw [write_class_def_succ] at hok
    by_cases hmem : cls ∈ st.written
    · rw [if_pos hmem] at hok
      injection hok with h'
      rw [← h']
      exact hgb
    · rw [if_neg hmem] at hok
      cases hwgl : write_gen_list (fun g s => write_class_def m h fuel g s) (h cls) st with
      | error e => simp only [hwgl] at hok; exact Except.noConfusion hok
      | ok st1 =>
        simp only [hwgl] at hok
        cases hwa : write_attributes m cls with
        | error e => simp only [hwa] at hok; exact Except.noConfusion hok
        | ok als =>
          simp only [hwa] at hok
          injection hok with h'
          rw [← h']
          have hgb1 : GensBefore h n st1.written := by
            refine write_gen_list_ok_gensBefore _ h n (h cls) st st1 ?_ hwgl hgb
            intro g hg st2 st2' hok2 hgb2
            have hglt : rk g < fuel := by
              have h1 := hrk cls g hg
              omega
            exact ih g st2 st2' hglt hok2 hgb2
          have hall : ∀ g ∈ h cls, g ∈ st1.written := by
            refine write_gen_list_ok_all_mem _
              (fun g st2 st2' hg => wcd_ok_extends m h fuel g st2 st2' hg)
              (h cls) st st1 ?_ hwgl
            intro g hg st2 st2' hok2
            have hfg : 1 ≤ fuel := by
              have h1 := hrk cls g hg
              omega
            exact wcd_ok_self_mem m h fuel g st2 st2' hfg hok2
          exact gensBefore_append h n st1.written cls hgb1 hall

/-! ## Helper lemmas: failure characterization -/

/-- The only failures the generation pipeline can produce: the explicit
`ValueError` of `type_converter` (with its fixed message shape), or the
two implicit failures inside `write_properties`. -/
def GenErrShape (e : Err) : Prop :=
  (∃ nm, e = .valueError ("ERROR! type is not specified for property " ++ nm)) ∨
  e = .unboundLocal "values" ∨ e = .indexError "tuple index out of range"

theorem type_converter_error_eq (m : Model) (p : Property) (e : Err)
    (he : type_converter m p = .error e) : e = .valueError (typeErrMsg p) := by
  unfold type_converter at he
  split at he
  · exact Except.noConfusion he
  · split at he
    · injection he with h'
      exact h'.symm
    · split at he
      · exact Except.noConfusion he
      · split at he
        · exact Except.noConfusion he
        · split at he
          · exact Except.noConfusion he
          · exact Except.noConfusion he

theorem type_converter_error_shape (m : Model) (p : Property) (e : Err)
    (he : type_converter m p = .error e) : GenErrShape e :=
  Or.inl ⟨optStr p.name, type_converter_error_eq m p e he⟩

theorem attrTypeLine_error_shape (m : Model) (a : Property) (e : Err)
    (he : attrTypeLine m a = .error e) : GenErrShape e := by
  unfold attrTypeLine at he
  split at he
  · exact Except.noConfusion he
  · split at he
    · rename_i e' htc
      injection he with h'
      rw [← h']
      exact type_converter_error_shape m a e' htc
    · split at he
      · exact Except.noConfusion he
      · split at he
        · exact Except.noConfusion he
        · split at he
          · exact Except.noConfusion he
          · split at he
            · exact Except.noConfusion he
            · exact Except.noConfusion he

theorem attrLinesGo_error_shape (m : Model) :
    ∀ (l : List Property) (e : Err), attrLinesGo m l = .error e → GenErrShape e := by
  intro l
  induction l with
  | nil => intro e he; exact Except.noConfusion he
  | cons a rest ih =>
    intro e he
    rw [attrLinesGo] at he
    cases hta : attrTypeLine m a with
    | error e' =>
      simp only [hta] at he
      injection he with h'
      rw [← h']
      exact attrTypeLine_error_shape m a e' hta
    | ok o =>
      simp only [hta] at he
      cases hrest : attrLinesGo m rest with
      | error e' =>
        simp only [hrest] at he
        injection he with h'
        rw [← h']
        exact ih e' hrest
      | ok os => simp only [hrest] at he; exact Except.noConfusion he

theorem attrLinesOf_error_shape (m : Model) (cls : Nat) (e : Err)
    (he : attrLinesOf m cls = .error e) : GenErrShape e := by
  unfold attrLinesOf at he
  split at he
  · rename_i e' hgo
    injection he with h'
    rw [← h']
    exact attrLinesGo_error_shape m _ e' hgo
  · exact Except.noConfusion he

theorem write_attributes_error_shape (m : Model) (cls : Nat) (e : Err)
    (he : write_attributes m cls = .error e) : GenErrShape e := by
  unfold write_attributes at he
  split at he
  · rename_i e' hal
    injection he with h'
    rw [← h']
    exact attrLinesOf_error_shape m cls e' hal
  · dsimp only at he
    split at he <;> exact Except.noConfusion he

theorem write_gen_list_error_shape
    (f : Nat → EmitState → Except Err EmitState)
    (hf : ∀ g st e, f g st = .error e → GenErrShape e) :
    ∀ (l : List Nat) (st : EmitState) (e : Err),
      write_gen_list f l st = .error e → GenErrShape e := by
  intro l
  induction l with
  | nil => intro st e he; exact Except.noConfusion he
  | cons g gs ih =>
    intro st e he
    cases hfg : f g st with
    | error e' =>
      simp only [write_gen_list, hfg] at he
      injection he with h'
      rw [← h']
      exact hf g st e' hfg
    | ok st1 =>
      simp only [write_gen_list, hfg] at he
      exact ih st1 e he

theorem wcd_error_shape (m : Model) (h : Nat → List Nat) :
    ∀ (fuel cls : Nat) (st : EmitState) (e : Err),
      write_class_def m h fuel cls st = .error e → GenErrShape e := by
  intro fuel
  induction fuel with
  | zero => intro cls st e he; exact Except.noConfusion he
  | succ fuel ih =>
    intro cls st e he
    rw [write_class_def_succ] at he
    by_cases hmem : cls ∈ st.written
    · rw [if_pos hmem] at he; exact Except.noConfusion he
    · rw [if_neg hmem] at he
      cases hwgl : write_gen_list (fun g s => write_class_def m h fuel g s) (h cls) st with
      | error e' =>
        simp only [hwgl] at he
        injection he with h'
        rw [← h']
        exact write_gen_list_error_shape _ (fun g st2 e2 hg => ih g st2 e2 hg) _ st e' hwgl
      | ok st1 =>
        simp only [hwgl] at he
        cases hwa : write_attributes m cls with
        | error e' =>
          simp only [hwa] at he
          injection he with h'
          rw [← h']
          exact write_attributes_error_shape m cls e' hwa
        | ok als => simp only [hwa] at he; exact Except.noConfusion he

theorem write_properties_go_error_shape (m : Model) (enums : List (String × Nat))
    (clsName : String) :
    ∀ (l : List Property) (values : Option (List (Option String)))
      (out : List String) (e : Err),
      write_properties_go m enums clsName l values out = .error e → GenErrShape e := by
  intro l
  induction l with
  | nil => intro values out e he; exact Except.noConfusion he
  | cons a rest ih =>
    intro values out e he
    rw [write_properties_go] at he
    split at he
    · exact ih _ _ _ he
    · split at he
      · rename_i e' htc
        injection he with h'
        rw [← h']
        exact type_converter_error_shape m a e' htc
      · split at he
        · exact ih _ _ _ he
        · split at he
          · exact ih _ _ _ he
          · split at he
            · dsimp only at he
              split at he
              · injection he with h'
                exact Or.inr (Or.inl h'.symm)
              · split at he
                · injection he with h'
                  exact Or.inr (Or.inr h'.symm)
                · exact ih _ _ _ he
            · exact ih _ _ _ he

theorem write_properties_error_shape (m : Model) (enums : List (String × Nat))
    (cls : Nat) (e : Err)
    (he : write_properties m enums cls = .error e) : GenErrShape e :=
  write_properties_go_error_shape m enums (m cls).name (m cls).attributes none [] e he

theorem writePropertiesAll_error_shape (m : Model) (enums : List (String × Nat)) :
    ∀ (l : List Nat) (e : Err),
      writePropertiesAll m enums l = .error e → GenErrShape e := by
  intro l
  induction l with
  | nil => intro e he; exact Except.noConfusion he
  | cons cls rest ih =>
    intro e he
    rw [writePropertiesAll] at he
    cases hwp : write_properties m enums cls with
    | error e' =>
      simp only [hwp] at he
      injection he with h'
      rw [← h']
      exact write_properties_error_shape m enums cls e' hwp
    | ok out =>
      simp only [hwp] at he
      cases hrest : writePropertiesAll m enums rest with
      | error e' =>
        simp only [hrest] at he
        injection he with h'
        rw [← h']
        exact ih e' hrest
      | ok out' => simp only [hrest] at he; exact Except.noConfusion he

theorem generate_error_shape (m : Model) (ml : String → Bool) (classes0 : List Nat)
    (fuel : Nat) (e : Err) (he : generate m ml classes0 fuel = .error e) :
    GenErrShape e := by
  unfold generate at he
  dsimp only at he
  split at he
  · rename_i e' hcd
    injection he with h'
    rw [← h']
    exact write_gen_list_error_shape _
      (fun g st2 e2 hg => wcd_error_shape m _ fuel g st2 e2 hg) _ _ e' hcd
  · split at he
    · rename_i e' hwp
      injection he with h'
      rw [← h']
      exact writePropertiesAll_error_shape _ _ _ e' hwp
    · exact Except.noConfusion he

theorem type_converter_error_iff (m : Model) (p : Property) :
    (∃ e, type_converter m p = .error e) ↔ p.type = none ∧ p.typeValue = none := by
  constructor
  · rintro ⟨e, he⟩
    unfold type_converter at he
    split at he
    · exact Except.noConfusion he
    · rename_i hpt
      split at he
      · rename_i hpv
        exact ⟨hpt, hpv⟩
      · split at he
        · exact Except.noConfusion he
        · split at he
          · exact Except.noConfusion he
          · split at he
            · exact Except.noConfusion he
            · exact Except.noConfusion he
  · rintro ⟨hpt, hpv⟩
    refine ⟨.valueError (typeErrMsg p), ?_⟩
    unfold type_converter
    rw [hpt, hpv]

/-! ## Helper lemmas: write_properties and the `values` local -/

/-- The precondition of claim C9: every attribute of `cls` that is
emitted (named, not `baseClass`, not derived) and whose converted type
contains `"Kind"` has that type present in the enumerations
dictionary. -/
def enumsCoverB (m : Model) (enums : List (String × Nat)) (cls : Nat) : Bool :=
  (m cls).attributes.all (fun a =>
    (pyFalsyStr a.name || a.name == some "baseClass" || a.isDerived) ||
    (match type_converter m a with
     | .ok tv => !strContainsSub tv "Kind" || (dictGet enums tv).isSome
     | .error _ => true))

theorem write_properties_go_no_unbound (m : Model) (enums : List (String × Nat))
    (clsName : String) :
    ∀ (l : List Property),
      (∀ a ∈ l,
        ((pyFalsyStr a.name || a.name == some "baseClass" || a.isDerived) ||
         (match type_converter m a with
          | .ok tv => !strContainsSub tv "Kind" || (dictGet enums tv).isSome
          | .error _ => true)) = true) →
      ∀ (values : Option (List (Option String))) (out : List String),
        write_properties_go m enums clsName l values out ≠
          .error (.unboundLocal "values") := by
  intro l
  induction l with
  | nil => intro _ values out he; exact Except.noConfusion he
  | cons a rest ih =>
    intro hcov values out he
    have hcova := hcov a (by simp)
    have hcovrest : ∀ a' ∈ rest, _ := fun a' ha' => hcov a' (List.mem_cons_of_mem _ ha')
    rw [write_properties_go] at he
    split at he
    · exact ih hcovrest _ _ he
    · rename_i hskip
      split at he
      · rename_i e' htc
        injection he with h'
        have heq := type_converter_error_eq m a e' htc
        rw [heq] at h'
        exact Err.noConfusion h'
      · rename_i tv htc
        split at he
        · exact ih hcovrest _ _ he
        · split at he
          · exact ih hcovrest _ _ he
          · split at he
            · rename_i hkind
              dsimp only at he
              rw [Bool.not_eq_true] at hskip
              rw [hskip] at hcova
              simp only [Bool.false_or, htc] at hcova
              rw [hkind] at hcova
              simp only [Bool.not_true, Bool.false_or] at hcova
              -- the dictionary lookup succeeds, so `values` gets bound
              cases hd : dictGet enums tv with
              | none => rw [hd] at hcova; exact Bool.noConfusion hcova
              | some en =>
                simp only [hd] at he
                split at he
                · injection he with h''
                  exact Err.noConfusion h''
                · exact ih hcovrest _ _ he
            · exact ih hcovrest _ _ he

theorem enumsCoverB_no_unbound (m : Model) (enums : List (String × Nat)) (cls : Nat)
    (hcov : enumsCoverB m enums cls = true) :
    write_properties m enums cls ≠ .error (.unboundLocal "values") := by
  unfold write_properties
  exact write_properties_go_no_unbound m enums (m cls).name (m cls).attributes
    (List.all_eq_true.mp hcov) none []

/-! ## Helper lemmas: the enumerations dictionary -/

theorem dictGet_mem : ∀ (d : List (String × Nat)) (k : String) (v : Nat),
    dictGet d k = some v → (k, v) ∈ d := by
  intro d
  induction d with
  | nil => intro k v h; exact Option.noConfusion h
  | cons p rest ih =>
    intro k v h
    rw [dictGet] at h
    cases hr : dictGet rest k with
    | some r =>
      rw [hr] at h
      injection h with h'
      rw [← h']
      exact List.mem_cons_of_mem _ (ih k r hr)
    | none =>
      simp only [hr] at h
      by_cases hk : (p.1 == k) = true
      · rw [if_pos hk] at h
        injection h with h'
        have hk' : p.1 = k := by simpa using hk
        have hpair : (k, v) = p := by rw [← hk', ← h']
        rw [hpair]
        exact List.mem_cons_self p rest
      · rw [if_neg hk] at h
        exact Option.noConfusion h

theorem dictGet_isSome_of_mem : ∀ (d : List (String × Nat)) (k : String) (v : Nat),
    (k, v) ∈ d → (dictGet d k).isSome = true := by
  intro d
  induction d with
  | nil => intro k v h; simp at h
  | cons p rest ih =>
    intro k v h
    rw [dictGet]
    cases hr : dictGet rest k with
    | some r => simp
    | none =>
      rcases List.mem_cons.mp h with rfl | hmem
      · simp
      · have := ih k v hmem
        rw [hr] at this
        simp at this

/-! ## Helper lemmas: attribute lines as an image of the sorted list -/

theorem attrLinesGo_ok_eq (m : Model) :
    ∀ (l : List Property) (os : List (Option String)),
      attrLinesGo m l = .ok os →
      os.reduceOption =
        l.filterMap (fun a => ((attrTypeLine m a).toOption.join)) := by
  intro l
  induction l with
  | nil =>
    intro os h
    injection h with h'
    rw [← h']
    rfl
  | cons a rest ih =>
    intro os h
    rw [attrLinesGo] at h
    cases hta : attrTypeLine m a with
    | error e => simp only [hta] at h; exact Except.noConfusion h
    | ok o =>
      simp only [hta] at h
      cases hrest : attrLinesGo m rest with
      | error e => simp only [hrest] at h; exact Except.noConfusion h
      | ok os' =>
        simp only [hrest] at h
        injection h with h'
        rw [← h']
        rw [List.filterMap_cons, hta]
        cases o with
        | none => simpa using ih os' hrest
        | some s =>
          simp only [List.reduceOption_cons_of_some]
          rw [ih os' hrest]
          rfl

/-! ## Helper lemmas: constraint removal -/

theorem removeConstraint_append_not_mem :
    ∀ (l r : List GConstraint) (c : GConstraint), c ∉ l →
      removeConstraint (l ++ c :: r) c = l ++ r := by
  intro l
  induction l with
  | nil =>
    intro r c _
    rw [List.nil_append, removeConstraint, if_pos rfl, List.nil_append]
  | cons x xs ih =>
    intro r c hc
    have hx : x ≠ c := fun h => hc (h ▸ List.mem_cons_self x xs)
    rw [List.cons_append, removeConstraint, if_neg hx, ih r c (fun h => hc (List.mem_cons_of_mem _ h))]
    rfl

/-! ## Helper lemmas: the stable sort -/

theorem mem_insertLe {α : Type} (le : α → α → Bool) (x a : α) :
    ∀ l : List α, a ∈ insertLe le x l ↔ a = x ∨ a ∈ l := by
  intro l
  induction l with
  | nil => simp [insertLe]
  | cons y ys ih =>
    rw [insertLe]
    by_cases hle : le x y = true
    · rw [if_pos hle]
      simp [List.mem_cons]
    · rw [if_neg hle]
      simp only [List.mem_cons, ih]
      tauto

theorem mem_sortByLe {α : Type} (le : α → α → Bool) (a : α) :
    ∀ l : List α, a ∈ sortByLe le l ↔ a ∈ l := by
  intro l
  induction l with
  | nil => simp [sortByLe]
  | cons x xs ih =>
    rw [sortByLe]
    rw [mem_insertLe]
    simp [List.mem_cons, ih]

theorem pairwise_insertLe {α : Type} (le : α → α → Bool)
    (htrans : ∀ a b c, le a b = true → le b c = true → le a c = true)
    (htotal : ∀ a b, (le a b || le b a) = true) (x : α) :
    ∀ l : List α, List.Pairwise (fun a b => le a b = true) l →
      List.Pairwise (fun a b => le a b = true) (insertLe le x l) := by
  intro l
  induction l with
  | nil => intro _; simp [insertLe]
  | cons y ys ih =>
    intro hp
    rw [List.pairwise_cons] at hp
    obtain ⟨hy, hys⟩ := hp
    rw [insertLe]
    by_cases hle : le x y = true
    · rw [if_pos hle]
      rw [List.pairwise_cons]
      constructor
      · intro a ha
        rcases List.mem_cons.mp ha with rfl | ha'
        · exact hle
        · exact htrans x y a hle (hy a ha')
      · rw [List.pairwise_cons]
        exact ⟨hy, hys⟩
    · rw [if_neg hle]
      have hyx : le y x = true := by
        have := htotal x y
        rw [Bool.or_eq_true] at this
        rcases this with h1 | h1
        · exact absurd h1 hle
        · exact h1
      rw [List.pairwise_cons]
      constructor
      · intro a ha
        rcases (mem_insertLe le x a ys).mp ha with rfl | ha'
        · exact hyx
        · exact hy a ha'
      · exact ih hys

theorem pairwise_sortByLe {α : Type} (le : α → α → Bool)
    (htrans : ∀ a b c, le a b = true → le b c = true → le a c = true)
    (htotal : ∀ a b, (le a b || le b a) = true) :
    ∀ l : List α, List.Pairwise (fun a b => le a b = true) (sortByLe le l) := by
  intro l
  induction l with
  | nil => simp [sortByLe]
  | cons x xs ih =>
    rw [sortByLe]
    exact pairwise_insertLe le htrans htotal x _ ih

/-! ## Concrete fixtures used by witnesses and counterexamples -/

/-- A property with every optional field absent. -/
def baseProperty : Property :=
  { name := none, type := none, typeValue := none, isDerived := false,
    lowerValue := none, upperValue := none, aggregation := none,
    opposite := none, association := none, slots := [] }

/-- A named attribute whose `typeValue` converts to an enumeration type
(`"XKind"`). -/
def kindProp : Property := { baseProperty with name := some "p", typeValue := some "XKind" }

/-- Class `A`, generalized by the class with identifier 1. -/
def exClassA : UMLClass :=
  { name := "A", qualifiedName := ["M", "A"], general := [1], attributes := [],
    ownedOperation := [] }

/-- Class `Z`, with no generalizations. -/
def exClassZ : UMLClass :=
  { name := "Z", qualifiedName := ["M", "Z"], general := [], attributes := [],
    ownedOperation := [] }

/-- A two-class model: class 0 is `A` (with base class `Z`), every other
identifier is `Z`. -/
def exModel : Model := fun c => if c = 0 then exClassA else exClassZ

/-- The hierarchy of `exModel`: class 0 has the single generalization 1. -/
def exH : Nat → List Nat := fun c => if c = 0 then [1] else []

/-- A rank function witnessing that `exH` is acyclic. -/
def exRk : Nat → Nat := fun c => if c = 0 then 1 else 0

/-- A class whose only attribute has enumeration type `"XKind"`. -/
def unboundClass : UMLClass :=
  { name := "C", qualifiedName := ["M", "C"], general := [], attributes := [kindProp],
    ownedOperation := [] }

/-- A model in which the `"XKind"` enumeration lookup fails (empty
enumerations dictionary), reaching the unbound `values` failure. -/
def unboundModel : Model := fun _ => unboundClass

/-- The `"XKind"` enumeration class, with one named literal. -/
def enumKindClass : UMLClass :=
  { name := "XKind", qualifiedName := ["M", "XKind"], general := [],
    attributes := [{ baseProperty with name := some "one" }], ownedOperation := [] }

/-- A model where class 0 uses the `"XKind"` enumeration and class 1 is
that enumeration. -/
def coveredModel : Model := fun c => if c = 0 then unboundClass else enumKindClass

/-- The enumerations dictionary covering `coveredModel`. -/
def coveredEnums : List (String × Nat) := [("XKind", 1)]

/-- The output of a small complete `generate` run on `exModel`. -/
def exRun : List String :=
  match generate exModel (fun _ => false) [0, 1] 2 with
  | .ok out => out
  | .error _ => []

/-! ## Claims -/

/-- Claim C1: in every successful run of the `write_class_def` traversal
of `generate` (`generateClassDefs`) over an acyclic hierarchy (witnessed
by the rank function `rk`) with enough fuel, the order in which class
definitions are written — recorded in `written` — satisfies: every class
recorded at or past position `n` (the positions before `n` holding the
pre-seeded, imported UML classes) has all classes of `hierarchy[cls]`
recorded strictly earlier.  A class is written only after all its
generalizations. -/
theorem c1_class_written_after_generalizations
    (m : Model) (h : Nat → List Nat) (rk : Nat → Nat) (fuel n : Nat)
    (keys : List Nat) (st0 st : EmitState)
    (hrk : ∀ c g, g ∈ h c → rk g < rk c)
    (hfuel : ∀ c, rk c < fuel)
    (hinv : GensBefore h n st0.written)
    (hok : generateClassDefs m h fuel keys st0 = .ok st) :
    GensBefore h n st.written := by
  refine write_gen_list_ok_gensBefore _ h n keys st0 st ?_ hok hinv
  intro g _ st1 st1' hok1 hgb1
  exact wcd_ok_gensBefore m h rk n hrk fuel g st1 st1' (hfuel g) hok1 hgb1

theorem c1_class_written_after_generalizations_witness :
    (∀ c g, g ∈ exH c → exRk g < exRk c) ∧ (∀ c, exRk c < 2) ∧
    GensBefore exH 0 (EmitState.mk [] []).written ∧
    GensBefore exH 0 [1, 0] := by
  have hrk : ∀ c g, g ∈ exH c → exRk g < exRk c := by
    intro c g hg
    by_cases hc : c = 0
    · subst hc
      simp [exH] at hg
      subst hg
      simp [exRk]
    · simp [exH, hc] at hg
  have hfuel : ∀ c, exRk c < 2 := by
    intro c
    by_cases hc : c = 0 <;> simp [exRk, hc]
  have hinv : GensBefore exH 0 (EmitState.mk [] []).written := by
    intro i hi
    simp at hi
  refine ⟨hrk, hfuel, hinv, ?_⟩
  exact c1_class_written_after_generalizations exModel exH exRk 2 0 [0]
    (EmitState.mk [] []) _ hrk hfuel hinv rfl

/-- Claim C2: `type_converter` fails exactly when the property has no
type object and its `typeValue` is `None`; when it fails the error is
the `ValueError` with the fixed message; and every failure of the whole
`generate` pipeline is either that `ValueError` or one of the two
implicit (not explicitly raised) failures of `write_properties` — no
other operation of the pipeline explicitly raises. -/
theorem c2_type_converter_only_explicit_raise :
    (∀ (m : Model) (p : Property),
       (∃ e, type_converter m p = .error e) ↔ p.type = none ∧ p.typeValue = none) ∧
    (∀ (m : Model) (p : Property) (e : Err),
       type_converter m p = .error e → e = .valueError (typeErrMsg p)) ∧
    (∀ (m : Model) (ml : String → Bool) (classes0 : List Nat) (fuel : Nat) (e : Err),
       generate m ml classes0 fuel = .error e → GenErrShape e) :=
  ⟨type_converter_error_iff, type_converter_error_eq, generate_error_shape⟩

theorem c2_type_converter_only_explicit_raise_witness :
    (baseProperty.type = none ∧ baseProperty.typeValue = none) ∧
    (type_converter exModel baseProperty ≠ .ok "int") := by
  refine ⟨⟨rfl, rfl⟩, ?_⟩
  obtain ⟨e, he⟩ :=
    (c2_type_converter_only_explicit_raise.1 exModel baseProperty).mpr ⟨rfl, rfl⟩
  rw [he]
  exact fun h => Except.noConfusion h

/-- Claim C3 counterexample: in the model `exModel` (class `A` with
base class `Z`), the traversal of `generate` emits the definition of
`Z` before that of `A` because `write_class_def` writes generalizations
first, so the sequence of class definitions is not ordered by class
name. -/
theorem c3_counterexample :
    (Except.map (fun st : EmitState => st.written.map (fun c => (exModel c).name))
        (generateClassDefs exModel
          (hierLookup (create_class_hierarchy exModel (traversalKeys exModel [0, 1]))) 2
          (traversalKeys exModel [0, 1]) ⟨[], []⟩) = .ok ["Z", "A"]) ∧
    ¬ List.Pairwise (fun a b => strLe a b = true) ["Z", "A"] := by
  refine ⟨rfl, ?_⟩
  intro hp
  have h := (List.pairwise_cons.mp hp).1 "A" (by simp)
  exact absurd h (by decide)

/-- Claim C3 (amended): `generate` is deterministic and sorts by name
what it iterates — the classes enter the traversal sorted by class
name, and each class's attribute lines are produced from its attribute
list sorted by attribute name (order-preserving image) — but the class
definitions themselves are emitted generalizations-first, so the
definition sequence need not be globally sorted by class name. -/
theorem c3_sorted_traversal_and_attribute_lines
    (m : Model) (classes0 : List Nat) (cls : Nat) (lines : List String)
    (hok : attrLinesOf m cls = .ok lines) :
    List.Pairwise (fun a b => classNameLe m a b = true) (traversalKeys m classes0) ∧
    List.Pairwise (fun a b => attrNameLe a b = true)
      (sortByLe attrNameLe (m cls).attributes) ∧
    lines = (sortByLe attrNameLe (m cls).attributes).filterMap
      (fun a => ((attrTypeLine m a).toOption.join)) := by
  refine ⟨?_, ?_, ?_⟩
  · exact pairwise_sortByLe _ (classNameLe_trans m) (classNameLe_total m) _
  · exact pairwise_sortByLe _ attrNameLe_trans attrNameLe_total _
  · unfold attrLinesOf at hok
    split at hok
    · exact Except.noConfusion hok
    · rename_i os hgo
      injection hok with h'
      rw [← h']
      exact attrLinesGo_ok_eq m _ os hgo

theorem c3_sorted_traversal_and_attribute_lines_witness :
    (attrLinesOf unboundModel 0 = .ok ["    p: enumeration\n"]) ∧
    ["    p: enumeration\n"] =
      (sortByLe attrNameLe (unboundModel 0).attributes).filterMap
        (fun a => ((attrTypeLine unboundModel a).toOption.join)) := by
  refine ⟨rfl, ?_⟩
  exact (c3_sorted_traversal_and_attribute_lines unboundModel [] 0 _ rfl).2.2

/-- Claim C4: `create_class_hierarchy` keys are exactly the input
classes in order; the value for each class is, as a set, its `general`
classes together with the meta classes from its `baseClass` extension
ends, sorted by class name; and `get_class_extensions` yields exactly
the owned-end classes of the associations of `baseClass` attributes. -/
theorem c4_create_class_hierarchy_shape (m : Model) (classes : List Nat) :
    ((create_class_hierarchy m classes).map Prod.fst = classes) ∧
    (∀ p ∈ create_class_hierarchy m classes,
       (∀ g, g ∈ p.2 ↔ g ∈ (m p.1).general ∨ g ∈ get_class_extensions m p.1) ∧
       List.Pairwise (fun a b => classNameLe m a b = true) p.2) ∧
    (∀ cls g, g ∈ get_class_extensions m cls ↔
       ∃ a ∈ (m cls).attributes,
         a.name = some "baseClass" ∧ a.association = some ⟨g⟩) := by
  refine ⟨?_, ?_, ?_⟩
  · unfold create_class_hierarchy
    rw [List.map_map]
    exact List.map_id classes
  · intro p hp
    unfold create_class_hierarchy at hp
    rw [List.mem_map] at hp
    obtain ⟨cls, hcls, rfl⟩ := hp
    constructor
    · intro g
      rw [mem_sortByLe, List.mem_append]
    · exact pairwise_sortByLe (classNameLe m) (classNameLe_trans m) (classNameLe_total m) _
  · intro cls g
    unfold get_class_extensions
    rw [List.mem_filterMap]
    constructor
    · rintro ⟨a, ha, hfa⟩
      rw [List.mem_filter] at ha
      obtain ⟨hmem, _⟩ := ha
      by_cases hn : (a.name == some "baseClass") = true
      · rw [if_pos hn] at hfa
        cases hassoc : a.association with
        | none => rw [hassoc] at hfa; exact Option.noConfusion hfa
        | some as =>
          rw [hassoc] at hfa
          injection hfa with h'
          refine ⟨a, hmem, by simpa using hn, ?_⟩
          rw [hassoc, ← h']
      · rw [if_neg hn] at hfa
        exact Option.noConfusion hfa
    · rintro ⟨a, ha, hname, hassoc⟩
      refine ⟨a, ?_, ?_⟩
      · rw [List.mem_filter]
        refine ⟨ha, ?_⟩
        rw [hassoc]
        rfl
      · rw [if_pos (by simp [hname]), hassoc]
        rfl

theorem c4_create_class_hierarchy_shape_witness :
    (((0 : Nat), [1]) ∈ create_class_hierarchy exModel [0, 1]) ∧
    (∀ g : Nat, g ∈ [1] ↔ g ∈ (exModel 0).general ∨ g ∈ get_class_extensions exModel 0) := by
  have hp : (((0 : Nat), [1]) ∈ create_class_hierarchy exModel [0, 1]) := by
    rw [show create_class_hierarchy exModel [0, 1] = [(0, [1]), (1, [])] from rfl]
    simp
  exact ⟨hp, ((c4_create_class_hierarchy_shape exModel [0, 1]).2.1 (0, [1]) hp).1⟩

/-- Claim C5: `ForkNodeItem.setup_canvas`, called on a freshly
initialized item (`_constraints` empty), adds exactly two constraints
to the solver — the equality of the two handles' x coordinates, and the
less-than constraint keeping the first handle's y below the second
handle's y with delta 30 — records exactly those two in
`self._constraints`, and `teardown_canvas` removes exactly these,
restoring the solver. -/
theorem c5_fork_node_constraints (solver0 : List GConstraint)
    (h1 : forkEqualsConstraint ∉ solver0)
    (h2 : forkLessThanConstraint ∉ solver0) :
    (setup_canvas ⟨solver0, []⟩).solver =
      solver0 ++ [GConstraint.equalsC .h1x .h2x, GConstraint.lessThan .h1y .h2y 30] ∧
    (setup_canvas ⟨solver0, []⟩).itemConstraints =
      [GConstraint.equalsC .h1x .h2x, GConstraint.lessThan .h1y .h2y 30] ∧
    (teardown_canvas (setup_canvas ⟨solver0, []⟩)).solver = solver0 := by
  refine ⟨rfl, rfl, ?_⟩
  show removeConstraint
      (removeConstraint (solver0 ++ [forkEqualsConstraint, forkLessThanConstraint])
        forkEqualsConstraint)
      forkLessThanConstraint = solver0
  rw [show solver0 ++ [forkEqualsConstraint, forkLessThanConstraint] =
        solver0 ++ forkEqualsConstraint :: [forkLessThanConstraint] from rfl]
  rw [removeConstraint_append_not_mem solver0 [forkLessThanConstraint]
        forkEqualsConstraint h1]
  rw [show solver0 ++ [forkLessThanConstraint] =
        solver0 ++ forkLessThanConstraint :: [] from rfl]
  rw [removeConstraint_append_not_mem solver0 [] forkLessThanConstraint h2]
  simp

theorem c5_fork_node_constraints_witness :
    (forkEqualsConstraint ∉ ([] : List GConstraint)) ∧
    (forkLessThanConstraint ∉ ([] : List GConstraint)) ∧
    (teardown_canvas (setup_canvas ⟨[], []⟩)).solver = [] := by
  refine ⟨by simp, by simp, ?_⟩
  exact (c5_fork_node_constraints [] (by simp) (by simp)).2.2

/-- Claim C6: the filter step of `generate` keeps exactly the classes
without `"Kind"` in the name, outside the `"Gaphor Profile"` package,
and whose name does not begin with `"~"`; the dropped `"Kind"` classes
are collected (keyed by name) into the enumerations dictionary. -/
theorem c6_filter_pipeline (m : Model) (classes0 : List Nat) :
    (∀ cls, cls ∈ traversalKeys m classes0 ↔
       (cls ∈ classes0 ∧ strContainsSub (m cls).name "Kind" = false ∧
        (m cls).qualifiedName.head? ≠ some "Gaphor Profile" ∧
        (m cls).name.toList.head? ≠ some '~')) ∧
    (∀ (k : String) (cls : Nat),
       dictGet (find_enumerations m classes0).2 k = some cls →
       cls ∈ classes0 ∧ strContainsSub (m cls).name "Kind" = true ∧ (m cls).name = k) ∧
    (∀ cls ∈ classes0, strContainsSub (m cls).name "Kind" = true →
       (dictGet (find_enumerations m classes0).2 ((m cls).name)).isSome = true) := by
  refine ⟨?_, ?_, ?_⟩
  · intro cls
    unfold traversalKeys filter_out_gaphor_profile find_enumerations
    rw [mem_sortByLe]
    simp only [List.mem_filter]
    constructor
    · rintro ⟨⟨⟨h0, h1⟩, h2⟩, h3⟩
      refine ⟨h0, by simpa using h1, by simpa using h2, by simpa using h3⟩
    · rintro ⟨h0, h1, h2, h3⟩
      refine ⟨⟨⟨h0, by simp [h1]⟩, by simpa using h2⟩, by simpa using h3⟩
  · intro k cls hd
    have hmem := dictGet_mem _ k cls hd
    unfold find_enumerations at hmem
    simp only [List.mem_map, List.mem_filter] at hmem
    obtain ⟨c, ⟨hc0, hc1⟩, hc2⟩ := hmem
    injection hc2 with hk hcls
    subst hcls
    exact ⟨hc0, hc1, hk⟩
  · intro cls hcls hkind
    apply dictGet_isSome_of_mem _ _ cls
    unfold find_enumerations
    simp only [List.mem_map, List.mem_filter]
    exact ⟨cls, ⟨hcls, hkind⟩, rfl⟩

theorem c6_filter_pipeline_witness :
    (1 ∈ [0, 1] ∧ strContainsSub (coveredModel 1).name "Kind" = true) ∧
    (dictGet (find_enumerations coveredModel [0, 1]).2 ((coveredModel 1).name)).isSome
      = true := by
  refine ⟨⟨by simp, rfl⟩, ?_⟩
  exact (c6_filter_pipeline coveredModel [0, 1]).2.2 1 (by simp) rfl

/-- Claim C7: every successful `generate` run writes the fixed header
first, followed by the `from gaphor.UML import ...` lines, before any
class definition. -/
theorem c7_header_first (m : Model) (ml : String → Bool) (classes0 : List Nat)
    (fuel : Nat) (out : List String)
    (hok : generate m ml classes0 fuel = .ok out) :
    ∃ rest,
      out = header ::
        umlImports m (filter_uml_classes m ml (traversalKeys m classes0)) ++ rest := by
  unfold generate at hok
  dsimp only at hok
  split at hok
  · exact Except.noConfusion hok
  · split at hok
    · exact Except.noConfusion hok
    · injection hok with h'
      simp only [List.cons_append, List.append_assoc] at h'
      exact ⟨_, h'.symm⟩

theorem c7_header_first_witness :
    generate exModel (fun _ => false) [0, 1] 2 = .ok exRun ∧
    exRun.head? = some header := by
  obtain ⟨rest, hr⟩ := c7_header_first exModel (fun _ => false) [0, 1] 2 exRun rfl
  refine ⟨rfl, ?_⟩
  rw [hr]
  rfl

/-- Claim C8: `write_class_def` is idempotent on `cls_written` — for a
class already recorded it writes nothing and leaves the state
unchanged — and consequently, over an acyclic hierarchy, the traversal
of `generate` records (and hence writes the definition of) every class
at most once, and every traversed class exactly once. -/
theorem c8_write_class_def_idempotent
    (m : Model) (h : Nat → List Nat) (rk : Nat → Nat)
    (fuel : Nat) (keys : List Nat) (st0 st : EmitState)
    (hrk : ∀ c g, g ∈ h c → rk g < rk c)
    (hnd : st0.written.Nodup)
    (hfuel : 1 ≤ fuel)
    (hok : generateClassDefs m h fuel keys st0 = .ok st) :
    (∀ (fuel' cls : Nat) (s : EmitState), cls ∈ s.written →
        write_class_def m h fuel' cls s = .ok s) ∧
    st.written.Nodup ∧ (∀ cls ∈ keys, List.count cls st.written = 1) := by
  have hnodup : st.written.Nodup :=
    write_gen_list_ok_nodup _ (fun g s s' hg => wcd_ok_nodup m h rk hrk fuel g s s' hg)
      keys st0 st hok hnd
  refine ⟨?_, hnodup, ?_⟩
  · intro fuel' cls s hmem
    cases fuel' with
    | zero => exact write_class_def_zero m h cls s
    | succ fuel' => rw [write_class_def_succ, if_pos hmem]
  · intro cls hcls
    have hmem : cls ∈ st.written :=
      write_gen_list_ok_all_mem _
        (fun g s s' hg => wcd_ok_extends m h fuel g s s' hg) keys st0 st
        (fun g _ s s' hg => wcd_ok_self_mem m h fuel g s s' hfuel hg) hok cls hcls
    exact List.count_eq_one_of_mem hnodup hmem

theorem c8_write_class_def_idempotent_witness :
    (∀ c g, g ∈ exH c → exRk g < exRk c) ∧ ([] : List Nat).Nodup ∧ 1 ≤ 2 ∧
    (List.Nodup [1, 0] ∧ ∀ cls ∈ [0], List.count cls [1, 0] = 1) := by
  have hrk : ∀ c g, g ∈ exH c → exRk g < exRk c := by
    intro c g hg
    by_cases hc : c = 0
    · subst hc
      simp [exH] at hg
      subst hg
      simp [exRk]
    · simp [exH, hc] at hg
  refine ⟨hrk, List.nodup_nil, by omega, ?_⟩
  have h := c8_write_class_def_idempotent exModel exH exRk 2 [0]
    (EmitState.mk [] []) _ hrk List.nodup_nil (by omega) rfl
  exact ⟨h.2.1, h.2.2⟩

/-- Claim C9: `write_properties` can reach the emission line with the
local `values` unassigned — concretely, on a class whose attribute has
the enumeration type `"XKind"` while the enumerations dictionary is
empty, it fails with an unbound-local error — and this failure is
unreachable whenever every emitted attribute whose converted type
contains `"Kind"` has its type present in the enumerations dictionary
(`enumsCoverB`). -/
theorem c9_write_properties_unbound_values
    (m : Model) (enums : List (String × Nat)) (cls : Nat)
    (hcov : enumsCoverB m enums cls = true) :
    (write_properties unboundModel [] 0 = .error (.unboundLocal "values")) ∧
    write_properties m enums cls ≠ .error (.unboundLocal "values") :=
  ⟨rfl, enumsCoverB_no_unbound m enums cls hcov⟩

theorem c9_write_properties_unbound_values_witness :
    enumsCoverB coveredModel coveredEnums 0 = true ∧
    write_properties coveredModel coveredEnums 0 ≠ .error (.unboundLocal "values") :=
  ⟨rfl, (c9_write_properties_unbound_values coveredModel coveredEnums 0 rfl).2⟩

/-- Claim C10: `ForkNodeItem.on_subject_notify` evaluates
`self.subject.joinSpec or self.subject.joinSpec.value` without a `None`
guard: with a subject present, it fails (with an `AttributeError` on
`.value`) exactly when the subject's `joinSpec` is `None`; for those
subjects the defaulting branch is not reached (and in fact no run ever
reaches the `set_join_spec(DEFAULT_JOIN_SPEC)` branch). -/
theorem c10_on_subject_notify_none_deref (s : NodeSubject) :
    ((∃ msg, on_subject_notify (some s) = .error msg) ↔ s.joinSpec = none) ∧
    (s.joinSpec = none → ∀ r, on_subject_notify (some s) ≠ .ok r) ∧
    (∀ (subj : Option NodeSubject) (r : Option NodeSubject × Bool),
       on_subject_notify subj = .ok r → r.2 = false) := by
  refine ⟨?_, ?_, ?_⟩
  · constructor
    · rintro ⟨msg, hmsg⟩
      cases hjs : s.joinSpec with
      | none => rfl
      | some js =>
        simp only [on_subject_notify, notifyGuard, hjs] at hmsg
        exact Except.noConfusion hmsg
    · intro hjs
      refine ⟨"AttributeError: NoneType object has no attribute value", ?_⟩
      simp only [on_subject_notify, notifyGuard, hjs]
  · intro hjs r hok
    simp only [on_subject_notify, notifyGuard, hjs] at hok
    exact Except.noConfusion hok
  · intro subj r hok
    cases subj with
    | none =>
      simp only [on_subject_notify, notifyGuard] at hok
      injection hok with h'
      rw [← h']
    | some s' =>
      cases hjs : s'.joinSpec with
      | none =>
        simp only [on_subject_notify, notifyGuard, hjs] at hok
        exact Except.noConfusion hok
      | some js =>
        simp only [on_subject_notify, notifyGuard, hjs] at hok
        injection hok with h'
        rw [← h']

theorem c10_on_subject_notify_none_deref_witness :
    ((⟨true, none⟩ : NodeSubject).joinSpec = none) ∧
    on_subject_notify (some ⟨true, none⟩) ≠ .ok (some ⟨true, none⟩, false) :=
  ⟨rfl, (c10_on_subject_notify_none_deref ⟨true, none⟩).2.1 rfl (some ⟨true, none⟩, false)⟩
